import Mathlib

/-!
Shallow embedding of the castore in-memory event storage engine
(event log, aggregate-id pagination, grouped-commit coordinator) and of the
JSON-schema command retry wrapper.

The storage adapter itself ships only with its unit tests in this tree, so the
storage definitions are modelled from the design document; the retry wrapper is
translated from `packages/json-schema-command/src/jsonSchema.ts`.
-/

/-- Modelled from the spec: an Event identifies a fact about one aggregate.
Fields: `aggregateId` (string), `version` (positive integer), `type` (string),
`timestamp` (ISO-8601 string, assigned by the log at push time if the caller
omits it, hence optional here). Payload fields are opaque to the log and
omitted. The `type` field is named `type_` because `type` is reserved. -/
structure Event where
  aggregateId : String
  version : Nat
  type_ : String
  timestamp : Option String
deriving Repr, DecidableEq

/-- Modelled from the spec: Event Log state is a mapping from `aggregateId` to
an ordered sequence of Events; modelled as an insertion-ordered association
list so that iteration order is stable. -/
abbrev EventLog := List (String × List Event)

/-- The stored event sequence of one aggregate: the first association-list
entry for the aggregate id, or the empty sequence when absent. -/
def eventsFor (store : EventLog) (aggregateId : String) : List Event :=
  match store.find? (fun p => p.1 == aggregateId) with
  | some p => p.2
  | none => []

/-- Replace (or create) the event sequence stored under one aggregate id,
preserving insertion order of the keys. -/
def storeSet (store : EventLog) (aggregateId : String) (events : List Event) :
    EventLog :=
  if store.any (fun p => p.1 == aggregateId) then
    store.map (fun p => if p.1 == aggregateId then (p.1, events) else p)
  else
    store ++ [(aggregateId, events)]

/-- Modelled from the spec: if `event.timestamp` is absent, the log assigns the
current time (`now`) before storing. -/
def resolveTimestamp (event : Event) (now : String) : Event :=
  { event with timestamp := some (event.timestamp.getD now) }

/-- Error data carried by `EventAlreadyExistsError`: the store id, aggregate id
and version, per the spec. -/
structure EventAlreadyExistsData where
  eventStoreId : String
  aggregateId : String
  version : Nat
deriving Repr, DecidableEq

/-- Errors a single push can raise. -/
inductive PushError where
  | eventAlreadyExists : EventAlreadyExistsData → PushError
deriving Repr, DecidableEq

/-- Modelled from the spec: `pushEventSync(event, context)` appends the event
to the aggregate's sequence; if an event with the same
`(aggregateId, version)` already exists it fails with
`EventAlreadyExistsError` (carrying store id, aggregate id, version) and
performs no mutation; an absent timestamp is resolved to the current time.
The pair returned is (outcome, post-call log state). -/
def pushEventSync (eventStoreId : String) (now : String) (event : Event)
    (store : EventLog) : Except PushError Event × EventLog :=
  let es := eventsFor store event.aggregateId
  if es.any (fun e => e.version == event.version) then
    (.error (.eventAlreadyExists
      ⟨eventStoreId, event.aggregateId, event.version⟩), store)
  else
    let resolved := resolveTimestamp event now
    (.ok resolved, storeSet store event.aggregateId (es ++ [resolved]))

/-- Modelled from the spec: `pushEvent` has the semantically identical
uniqueness check and timestamp assignment as `pushEventSync`. -/
def pushEvent (eventStoreId : String) (now : String) (event : Event)
    (store : EventLog) : Except PushError Event × EventLog :=
  pushEventSync eventStoreId now event store

/-- Options of `getEvents`, all independently composable. -/
structure GetEventsOptions where
  minVersion : Option Nat := none
  maxVersion : Option Nat := none
  limit : Option Nat := none
  reverse : Bool := false
deriving Repr, DecidableEq

/-- Modelled from the spec: `getEvents(aggregateId, options)` returns the
filtered, ordered event sequence of one aggregate: inclusive
`minVersion`/`maxVersion` bounds, ascending order unless `reverse`, and
`limit` applied after range filtering and after reordering. Unknown
aggregate gives the empty sequence. -/
def getEvents (store : EventLog) (aggregateId : String)
    (options : GetEventsOptions) : List Event :=
  let events := eventsFor store aggregateId
  let filtered := events.filter (fun e =>
    options.minVersion.all (fun m => m ≤ e.version) &&
    options.maxVersion.all (fun n => e.version ≤ n))
  let ordered := if options.reverse then filtered.reverse else filtered
  match options.limit with
  | none => ordered
  | some k => ordered.take k

/-- Code-unit lexicographic order on character lists; ISO-8601 timestamps
compare chronologically under it, mirroring string comparison in the host
language. -/
def lexLe : List Char → List Char → Bool
  | [], _ => true
  | _ :: _, [] => false
  | a :: as, b :: bs =>
    if a.toNat < b.toNat then true
    else if b.toNat < a.toNat then false
    else lexLe as bs

/-- Lexicographic order on strings, via their character lists. -/
def strLe (a b : String) : Bool := lexLe a.data b.data

/-- Modelled from the spec: the decoded form of a pagination cursor — the
active filter parameters (`limit`, `initialEventAfter`, `initialEventBefore`,
`reverse`) and the `lastEvaluatedKey` (last aggregate id returned). Absent
fields stay absent, as in the serialized JSON of the tests. -/
structure ParsedPageToken where
  limit : Option Nat := none
  initialEventAfter : Option String := none
  initialEventBefore : Option String := none
  reverse : Option Bool := none
  lastEvaluatedKey : Option String := none
deriving Repr, DecidableEq

/-- Unary length marker used by the token serialization: `n` ones then a
comma. -/
def encodeCount (n : Nat) : List Char := List.replicate n '1' ++ [',']

/-- Serialize an optional string field: `N` when absent, otherwise `S`, the
length marker and the raw characters. -/
def encodeOptStr : Option String → List Char
  | none => ['N']
  | some s => 'S' :: (encodeCount s.length ++ s.data)

/-- Serialize an optional numeric field. -/
def encodeOptNat : Option Nat → List Char
  | none => ['N']
  | some n => 'S' :: encodeCount n

/-- Serialize an optional boolean field. -/
def encodeOptBool : Option Bool → List Char
  | none => ['N']
  | some true => ['T']
  | some false => ['F']

/-- Modelled from the spec: the pagination token is an opaque serialized
string of the filter fields plus `lastEvaluatedKey`. -/
def encodeToken (t : ParsedPageToken) : String :=
  ⟨encodeOptNat t.limit ++ encodeOptStr t.initialEventAfter ++
    encodeOptStr t.initialEventBefore ++ encodeOptBool t.reverse ++
    encodeOptStr t.lastEvaluatedKey⟩

/-- Read back a unary length marker. -/
def parseCount : List Char → Option (Nat × List Char)
  | [] => none
  | c :: cs =>
    if c = ',' then some (0, cs)
    else if c = '1' then
      match parseCount cs with
      | some (n, rest) => some (n + 1, rest)
      | none => none
    else none

/-- Read back an optional numeric field. -/
def parseOptNat : List Char → Option (Option Nat × List Char)
  | 'N' :: cs => some (none, cs)
  | 'S' :: cs =>
    match parseCount cs with
    | some (n, rest) => some (some n, rest)
    | none => none
  | _ => none

/-- Read back an optional string field. -/
def parseOptStr : List Char → Option (Option String × List Char)
  | 'N' :: cs => some (none, cs)
  | 'S' :: cs =>
    match parseCount cs with
    | some (n, rest) =>
      if n ≤ rest.length then some (some ⟨rest.take n⟩, rest.drop n) else none
    | none => none
  | _ => none

/-- Read back an optional boolean field. -/
def parseOptBool : List Char → Option (Option Bool × List Char)
  | 'N' :: cs => some (none, cs)
  | 'T' :: cs => some (some true, cs)
  | 'F' :: cs => some (some false, cs)
  | _ => none

/-- Deserialize a pagination token; fails on malformed input. -/
def decodeToken (s : String) : Option ParsedPageToken :=
  match parseOptNat s.data with
  | none => none
  | some (lim, r1) =>
    match parseOptStr r1 with
    | none => none
    | some (after, r2) =>
      match parseOptStr r2 with
      | none => none
      | some (before, r3) =>
        match parseOptBool r3 with
        | none => none
        | some (rev, r4) =>
          match parseOptStr r4 with
          | none => none
          | some (lastKey, r5) =>
            if r5.isEmpty then some ⟨lim, after, before, rev, lastKey⟩
            else none

/-- Options accepted by `listAggregateIds`. -/
structure ListAggregateIdsOptions where
  limit : Option Nat := none
  initialEventAfter : Option String := none
  initialEventBefore : Option String := none
  reverse : Bool := false
  pageToken : Option String := none
deriving Repr, DecidableEq

/-- The filter a `listAggregateIds` call actually runs with, after the page
token (when present) has been decoded. -/
structure ResolvedFilter where
  limit : Option Nat
  initialEventAfter : Option String
  initialEventBefore : Option String
  reverse : Bool
  lastEvaluatedKey : Option String
deriving Repr, DecidableEq

/-- Modelled from the spec, step 1 of `listAggregateIds`: if
`options.pageToken` is present, decode it to recover the filter fields and
`lastEvaluatedKey`; otherwise take the filter fields directly from `options`
with no `lastEvaluatedKey`. -/
def resolveFilter (options : ListAggregateIdsOptions) : ResolvedFilter :=
  match options.pageToken with
  | some tok =>
    match decodeToken tok with
    | some t =>
      ⟨t.limit, t.initialEventAfter, t.initialEventBefore,
        t.reverse.getD false, t.lastEvaluatedKey⟩
    | none =>
      ⟨options.limit, options.initialEventAfter, options.initialEventBefore,
        options.reverse, none⟩
  | none =>
    ⟨options.limit, options.initialEventAfter, options.initialEventBefore,
      options.reverse, none⟩

/-- Modelled from the spec: an aggregate's initial event is its lowest-version
event; its initial timestamp is that event's timestamp. -/
def initialEventTs (events : List Event) : Option String :=
  (events.foldl
    (fun acc e =>
      match acc with
      | none => some e
      | some a => if e.version < a.version then some e else some a)
    none).bind (fun e => e.timestamp)

/-- The initial-event timestamp of one aggregate of the log. -/
def aggregateInitialTs (store : EventLog) (aggregateId : String) :
    Option String :=
  initialEventTs (eventsFor store aggregateId)

/-- Modelled from the spec, step 2: an initial timestamp passes the filter when
it lies within the inclusive `(initialEventAfter, initialEventBefore)`
bounds. -/
def tsInRange (initialEventAfter initialEventBefore : Option String)
    (ts : String) : Bool :=
  initialEventAfter.all (fun a => strLe a ts) &&
  initialEventBefore.all (fun b => strLe ts b)

/-- Modelled from the spec, steps 2–3: the known aggregates paired with their
initial timestamps, those out of range discarded, sorted by initial timestamp
(ascending, or descending under `reverse`), ties kept in stable insertion
order; projected to the aggregate ids. -/
def baseAggregateIds (initialEventAfter initialEventBefore : Option String)
    (reverse : Bool) (store : EventLog) : List String :=
  let candidates :=
    store.filterMap (fun p => (initialEventTs p.2).map (fun ts => (p.1, ts)))
  let inRange :=
    candidates.filter (fun c => tsInRange initialEventAfter initialEventBefore c.2)
  let sorted :=
    if reverse then
      inRange.insertionSort (fun p q => strLe q.2 p.2 = true)
    else
      inRange.insertionSort (fun p q => strLe p.2 q.2 = true)
  sorted.map (fun p => p.1)

/-- Modelled from the spec, step 4: when a `lastEvaluatedKey` is present, skip
all ids up to and including it. -/
def skipPast (lastEvaluatedKey : Option String) (ids : List String) :
    List String :=
  match lastEvaluatedKey with
  | none => ids
  | some k => ((ids.dropWhile (fun i => i != k)).drop 1)

/-- The ordered ids a resolved `listAggregateIds` call still has to serve,
before the limit is applied. -/
def remainingAggregateIds (f : ResolvedFilter) (store : EventLog) :
    List String :=
  skipPast f.lastEvaluatedKey
    (baseAggregateIds f.initialEventAfter f.initialEventBefore f.reverse store)

/-- Result of `listAggregateIds`: one page of aggregate ids and an optional
resume token. -/
structure ListAggregateIdsResult where
  aggregateIds : List String
  nextPageToken : Option String
deriving Repr, DecidableEq

/-- Modelled from the spec, steps 5–6: take up to `limit` ids (no limit means
the full remainder and no token); when more ids remain beyond the page, emit a
token re-encoding the filter fields with `lastEvaluatedKey` = last id
returned. -/
def listAggregateIdsResolved (f : ResolvedFilter) (store : EventLog) :
    ListAggregateIdsResult :=
  let remaining := remainingAggregateIds f store
  match f.limit with
  | none => ⟨remaining, none⟩
  | some k =>
    let page := remaining.take k
    if k < remaining.length then
      ⟨page, some (encodeToken
        ⟨some k, f.initialEventAfter, f.initialEventBefore,
          (if f.reverse then some true else none), page.getLast?⟩)⟩
    else
      ⟨page, none⟩

/-- Modelled from the spec: `listAggregateIds(options)` resolves the active
filter (decoding the page token when present) and serves the corresponding
page. -/
def listAggregateIds (options : ListAggregateIdsOptions) (store : EventLog) :
    ListAggregateIdsResult :=
  listAggregateIdsResolved (resolveFilter options) store

/-- All pages of `listAggregateIds`, concatenated by following
`nextPageToken` (passed as the sole option of each subsequent call) until it
is absent; `fuel` bounds the number of calls. -/
def collectAggregateIdPages (fuel : Nat) (options : ListAggregateIdsOptions)
    (store : EventLog) : List String :=
  match fuel with
  | 0 => []
  | fuel + 1 =>
    let r := listAggregateIds options store
    match r.nextPageToken with
    | none => r.aggregateIds
    | some tok =>
      r.aggregateIds ++
        collectAggregateIdPages fuel { pageToken := some tok } store

/-- Modelled from the spec: the storage-adapter family a log belongs to; a
grouped commit rejects targets outside the receiving log's family. -/
inductive AdapterFamily where
  | inMemory
  | foreign
deriving Repr, DecidableEq

/-- Push context: must carry the event store id. -/
structure PushContext where
  eventStoreId : String
deriving Repr, DecidableEq

/-- Modelled from the spec: a Grouped Event is an ephemeral association of one
event, a target event log (an index into the collection of logs involved) and
a push context, the latter optional because a grouped event can be built
without one (which `pushEventGroup` then rejects). The target log's adapter
family is carried for the compatibility check. -/
structure GroupedEvent where
  event : Event
  targetLog : Nat
  adapterFamily : AdapterFamily
  context : Option PushContext
deriving Repr, DecidableEq

/-- Errors of a grouped commit. -/
inductive GroupError where
  | contextMissing : GroupError
  | incompatibleAdapter : GroupError
  | pushFailed : PushError → GroupError
deriving Repr, DecidableEq

/-- One rollback compensation: delete the entry for `(aggregateId, version)`
from the owning log. -/
def deleteEvent (store : EventLog) (aggregateId : String) (version : Nat) :
    EventLog :=
  store.map (fun p =>
    if p.1 == aggregateId then
      (p.1, p.2.filter (fun e => e.version != version))
    else p)

/-- Undo one committed entry `(targetLog, aggregateId, version)` in a
collection of logs. -/
def undoCommitted (stores : List EventLog) (c : Nat × String × Nat) :
    List EventLog :=
  stores.set c.1 (deleteEvent (stores.getD c.1 []) c.2.1 c.2.2)

/-- Modelled from the spec: compensate every previously committed entry in
reverse commit order (the `committed` list is a stack, most recent first). -/
def rollbackAll (committed : List (Nat × String × Nat))
    (stores : List EventLog) : List EventLog :=
  committed.foldl undoCommitted stores

/-- Modelled from the spec, commit algorithm of `pushEventGroup`: iterate the
grouped events in order, invoking the target log's `pushEventSync`; record
each success on the committed stack; on the first failure roll back the stack
in reverse commit order and surface the triggering error; when all pushes
succeed return the persisted events in commit order. -/
def pushEventGroupLoop (now : String) :
    List GroupedEvent → List EventLog → List (Nat × String × Nat) →
    List Event → Except GroupError (List Event) × List EventLog
  | [], stores, _, acc => (.ok acc.reverse, stores)
  | ge :: rest, stores, committed, acc =>
    let store := stores.getD ge.targetLog []
    let storeId := (ge.context.map (fun c => c.eventStoreId)).getD ""
    match pushEventSync storeId now ge.event store with
    | (.ok persisted, store') =>
      pushEventGroupLoop now rest (stores.set ge.targetLog store')
        ((ge.targetLog, ge.event.aggregateId, ge.event.version) :: committed)
        (persisted :: acc)
    | (.error err, _) =>
      (.error (.pushFailed err), rollbackAll committed stores)

/-- Modelled from the spec: `pushEventGroup` checks, before any mutation, that
every grouped event carries a context and that every target belongs to the
receiving log's adapter family; then runs the sequential commit loop with
best-effort compensation. The pair returned is (outcome, post-call state of
all logs). -/
def pushEventGroup (receiverFamily : AdapterFamily) (now : String)
    (groupedEvents : List GroupedEvent) (stores : List EventLog) :
    Except GroupError (List Event) × List EventLog :=
  if groupedEvents.any (fun ge => ge.context.isNone) then
    (.error .contextMissing, stores)
  else if groupedEvents.any (fun ge => ge.adapterFamily != receiverFamily) then
    (.error .incompatibleAdapter, stores)
  else
    pushEventGroupLoop now groupedEvents stores [] []

/-- One observed outcome of invoking the user handler of a
`JSONSchemaCommand`: a successful output, an `EventAlreadyExistsError`, or any
other error. -/
inductive HandlerOutcome (O : Type) where
  | ok : O → HandlerOutcome O
  | eventAlreadyExists : EventAlreadyExistsData → HandlerOutcome O
  | otherError : String → HandlerOutcome O
deriving Repr, DecidableEq

/-- Errors the wrapped handler can surface. -/
inductive HandlerError where
  | eventAlreadyExists : EventAlreadyExistsData → HandlerError
  | other : String → HandlerError
deriving Repr, DecidableEq

/-- What one run of the wrapped handler did: its result, how many times the
user handler was invoked, and the arguments of every `onEventAlreadyExists`
call in order — the error plus the `{ attemptNumber, retriesLeft }` context. -/
structure HandlerRun (O : Type) where
  result : Except HandlerError O
  invocations : Nat
  onEventAlreadyExistsCalls : List (EventAlreadyExistsData × Nat × Nat)
deriving Repr

/-- The retry loop of the wrapped handler built by the `JSONSchemaCommand`
constructor (`jsonSchema.ts`, lines 77–109): try the user handler; rethrow any
non-`EventAlreadyExistsError` at once; otherwise await `onEventAlreadyExists`
with the current attempt number and retries left, rethrow when no retries
remain, else decrement and loop. `attempts i` is the outcome of the `i`-th
(0-based) invocation of the user handler. -/
def wrappedHandlerLoop {O : Type} (attempts : Nat → HandlerOutcome O) :
    Nat → Nat → Nat → List (EventAlreadyExistsData × Nat × Nat) → HandlerRun O
  | attemptIndex, attemptNumber, retriesLeft, calls =>
    match attempts attemptIndex with
    | .ok o => ⟨.ok o, attemptIndex + 1, calls⟩
    | .otherError e => ⟨.error (.other e), attemptIndex + 1, calls⟩
    | .eventAlreadyExists err =>
      let calls' := calls ++ [(err, attemptNumber, retriesLeft)]
      match retriesLeft with
      | 0 => ⟨.error (.eventAlreadyExists err), attemptIndex + 1, calls'⟩
      | r + 1 => wrappedHandlerLoop attempts (attemptIndex + 1)
          (attemptNumber + 1) r calls'

/-- The wrapped handler of a `JSONSchemaCommand`: starts at attempt number 1
with `eventAlreadyExistsRetries` retries left (2 when the constructor argument
is omitted). -/
def wrappedHandler {O : Type} (eventAlreadyExistsRetries : Nat)
    (attempts : Nat → HandlerOutcome O) : HandlerRun O :=
  wrappedHandlerLoop attempts 0 1 eventAlreadyExistsRetries []

/-- The default number of retries of the constructor
(`eventAlreadyExistsRetries = 2`). -/
def defaultEventAlreadyExistsRetries : Nat := 2

/-- Observational equivalence of two collections of logs: every aggregate of
every log holds the same event sequence. -/
def ObsEq (s t : List EventLog) : Prop :=
  ∀ j a, eventsFor (s.getD j []) a = eventsFor (t.getD j []) a

/-- Log of the C1 witness scenario: log B already holds `(agg2, 1)`, so the
group's second push fails. -/
def c1StoreB : EventLog := [("agg2", [⟨"agg2", 1, "T", some "t0"⟩])]

/-- Initial collection of logs of the C1 witness scenario. -/
def c1Stores : List EventLog := [[], c1StoreB]

/-- First grouped event of the C1 witness scenario, targeting log A. -/
def c1GroupA : GroupedEvent := ⟨⟨"agg1", 1, "T", none⟩, 0, .inMemory, some ⟨"A"⟩⟩

/-- Second grouped event of the C1 witness scenario, targeting log B. -/
def c1GroupB : GroupedEvent := ⟨⟨"agg2", 1, "T", none⟩, 1, .inMemory, some ⟨"B"⟩⟩

/-- Log of the C7 witness scenario: three aggregates with distinct initial
timestamps, inserted out of chronological order. -/
def c7Store : EventLog :=
  [("b", [⟨"b", 1, "T", some "2022"⟩]),
   ("a", [⟨"a", 1, "T", some "2021"⟩]),
   ("c", [⟨"c", 1, "T", some "2023"⟩])]

/-! ### Lemmas about association-list lookups -/

theorem eventsFor_cons (p : String × List Event) (ps : EventLog) (b : String) :
    eventsFor (p :: ps) b = if p.1 == b then p.2 else eventsFor ps b := by
  simp only [eventsFor, List.find?_cons]
  cases h : p.1 == b <;> simp [h]

theorem find?_key_map (f : String × List Event → String × List Event)
    (hf : ∀ p, (f p).1 = p.1) (store : EventLog) (b : String) :
    (store.map f).find? (fun p => p.1 == b) =
      (store.find? (fun p => p.1 == b)).map f := by
  induction store with
  | nil => rfl
  | cons p ps ih =>
    simp only [List.map_cons, List.find?_cons, hf]
    cases h : p.1 == b <;> simp [h, ih]

theorem eventsFor_deleteEvent (store : EventLog) (k : String) (v : Nat)
    (b : String) :
    eventsFor (deleteEvent store k v) b =
      if b = k then (eventsFor store b).filter (fun e => e.version != v)
      else eventsFor store b := by
  unfold deleteEvent eventsFor
  rw [find?_key_map _ (fun p => by cases h : p.1 == k <;> simp [h])]
  cases hfind : store.find? (fun p => p.1 == b) with
  | none => by_cases hbk : b = k <;> simp [hbk]
  | some p =>
    have hp : p.1 = b := by
      have := List.find?_some hfind
      simpa using this
    by_cases hbk : b = k
    · simp [hbk ▸ hp, hp, hbk]
    · have hpk : ¬ p.1 = k := fun h => hbk (hp.symm.trans h)
      simp [hpk, hbk]

theorem eventsFor_append_absent (store : EventLog) (a : String)
    (l : List Event) (b : String)
    (h : store.any (fun p => p.1 == a) = false) :
    eventsFor (store ++ [(a, l)]) b = if b = a then l else eventsFor store b := by
  induction store with
  | nil =>
    simp only [List.nil_append]
    rw [eventsFor_cons]
    by_cases hba : b = a
    · simp [hba]
    · have : (a == b) = false := by
        simp
        exact fun hh => hba hh.symm
      simp [this, hba, eventsFor]
  | cons p ps ih =>
    simp only [List.any_cons, Bool.or_eq_false_iff] at h
    obtain ⟨hpa, hps⟩ := h
    simp only [List.cons_append]
    rw [eventsFor_cons, eventsFor_cons, ih hps]
    by_cases hpb : (p.1 == b) = true
    · have hba : ¬ b = a := by
        intro hba
        rw [beq_iff_eq] at hpb
        rw [hpb, hba] at hpa
        simp at hpa
      simp [hpb, hba]
    · simp [Bool.of_not_eq_true hpb]

theorem eventsFor_map_present (store : EventLog) (a : String) (l : List Event)
    (b : String) (hany : store.any (fun p => p.1 == a) = true) :
    eventsFor (store.map (fun p => if p.1 == a then (p.1, l) else p)) b =
      if b = a then l else eventsFor store b := by
  induction store with
  | nil => simp at hany
  | cons p ps ih =>
    simp only [List.map_cons]
    rw [eventsFor_cons, eventsFor_cons]
    by_cases hpa : (p.1 == a) = true
    · by_cases hpb : (p.1 == b) = true
      · have hba : b = a := ((beq_iff_eq.mp hpb).symm.trans (beq_iff_eq.mp hpa))
        simp [hpa, hpb, hba]
      · have hba : ¬ b = a := by
          intro hba
          exact hpb (hba ▸ hpa)
        have hfst : (if p.1 == a then (p.1, l) else p).1 = p.1 := by
          simp [hpa]
        rw [hfst]
        simp only [Bool.of_not_eq_true hpb, if_false]
        rw [eventsFor, find?_key_map _
          (fun q => by cases h : q.1 == a <;> simp [h])]
        cases hfind : ps.find? (fun q => q.1 == b) with
        | none => simp [hba, eventsFor, hfind]
        | some q =>
          have hq : q.1 = b := by
            have := List.find?_some hfind
            simpa using this
          have hqa : (q.1 == a) = false := by
            simp [hq]
            exact fun hh => hba hh
          have hqna : ¬ q.1 = a := by simpa using hqa
          simp [hfind, hqna, hba, eventsFor]
    · have hfall : (if p.1 == a then (p.1, l) else p) = p := by
        simp [Bool.of_not_eq_true hpa]
      rw [hfall]
      have hpsany : ps.any (fun q => q.1 == a) = true := by
        rcases List.any_eq_true.mp hany with ⟨x, hx, hxa⟩
        rcases List.mem_cons.mp hx with hx1 | hx2
        · exact absurd (hx1 ▸ hxa) hpa
        · exact List.any_eq_true.mpr ⟨x, hx2, hxa⟩
      by_cases hpb : (p.1 == b) = true
      · have hba : ¬ b = a := fun h =>
          hpa (beq_iff_eq.mpr ((beq_iff_eq.mp hpb).trans h))
        simp [hpb, hba]
      · simp only [Bool.of_not_eq_true hpb, if_false]
        exact ih hpsany

theorem eventsFor_storeSet (store : EventLog) (a : String) (l : List Event)
    (b : String) :
    eventsFor (storeSet store a l) b = if b = a then l else eventsFor store b := by
  unfold storeSet
  cases hany : store.any (fun p => p.1 == a) with
  | false => simpa using eventsFor_append_absent store a l b hany
  | true => simpa using eventsFor_map_present store a l b hany

/-! ### Rollback restores the observable state of every log -/

theorem getD_set_ite (stores : List EventLog) (i j : Nat) (s : EventLog) :
    (stores.set i s).getD j [] =
      if i = j ∧ i < stores.length then s else stores.getD j [] := by
  rw [List.getD_eq_getElem?_getD, List.getD_eq_getElem?_getD,
    List.getElem?_set]
  by_cases hij : i = j
  · subst hij
    by_cases hlen : i < stores.length
    · simp [hlen]
    · have hle : stores.length ≤ i := by omega
      simp [hlen, List.getElem?_eq_none hle]
  · simp [hij]

theorem eventsFor_undoCommitted (stores : List EventLog)
    (c : Nat × String × Nat) (j : Nat) (a : String) :
    eventsFor ((undoCommitted stores c).getD j []) a =
      if j = c.1 ∧ a = c.2.1 then
        (eventsFor (stores.getD j []) a).filter (fun e => e.version != c.2.2)
      else eventsFor (stores.getD j []) a := by
  unfold undoCommitted
  rw [getD_set_ite]
  by_cases hij : c.1 = j
  · by_cases hlen : c.1 < stores.length
    · rw [if_pos ⟨hij, hlen⟩, eventsFor_deleteEvent, hij]
      by_cases hak : a = c.2.1 <;> simp [hak, hij]
    · rw [if_neg (fun h => hlen h.2)]
      have hj : stores.length ≤ j := by omega
      rw [List.getD_eq_default _ _ hj]
      by_cases hak : a = c.2.1 <;> simp [hak, hij, eventsFor]
  · rw [if_neg (fun h => hij h.1)]
    have : ¬ (j = c.1 ∧ a = c.2.1) := fun h => hij h.1.symm
    rw [if_neg this]

theorem obsEq_refl (s : List EventLog) : ObsEq s s := fun _ _ => rfl

theorem obsEq_trans {s t u : List EventLog} (h1 : ObsEq s t) (h2 : ObsEq t u) :
    ObsEq s u := fun j a => (h1 j a).trans (h2 j a)

theorem obsEq_undoCommitted {s t : List EventLog} (h : ObsEq s t)
    (c : Nat × String × Nat) : ObsEq (undoCommitted s c) (undoCommitted t c) := by
  intro j a
  rw [eventsFor_undoCommitted, eventsFor_undoCommitted]
  by_cases hc : (j = c.1 ∧ a = c.2.1)
  · rw [if_pos hc, if_pos hc, h j a]
  · rw [if_neg hc, if_neg hc]
    exact h j a

theorem obsEq_rollbackAll {s t : List EventLog} (h : ObsEq s t)
    (committed : List (Nat × String × Nat)) :
    ObsEq (rollbackAll committed s) (rollbackAll committed t) := by
  induction committed generalizing s t with
  | nil => exact h
  | cons c cs ih =>
    show ObsEq (rollbackAll cs (undoCommitted s c))
      (rollbackAll cs (undoCommitted t c))
    exact ih (obsEq_undoCommitted h c)

theorem obsEq_undo_push (stores : List EventLog) (tgt : Nat)
    (storeId now : String) (event : Event) (persisted : Event)
    (store' : EventLog)
    (h : pushEventSync storeId now event (stores.getD tgt []) =
      (.ok persisted, store')) :
    ObsEq (undoCommitted (stores.set tgt store')
      (tgt, event.aggregateId, event.version)) stores := by
  have hany : (eventsFor (stores.getD tgt []) event.aggregateId).any
      (fun e => e.version == event.version) = false := by
    by_contra hc
    have hc' := Bool.of_not_eq_false hc
    simp only [pushEventSync, hc', if_true] at h
    exact absurd (congrArg Prod.fst h) (by simp)
  have hstore' : store' = storeSet (stores.getD tgt []) event.aggregateId
      (eventsFor (stores.getD tgt []) event.aggregateId ++
        [resolveTimestamp event now]) := by
    simp only [pushEventSync, hany, Bool.false_eq_true, if_false] at h
    exact (congrArg Prod.snd h).symm
  intro j a
  rw [eventsFor_undoCommitted]
  by_cases hcond : (j = tgt ∧ a = event.aggregateId)
  · obtain ⟨hj, ha⟩ := hcond
    rw [if_pos ⟨hj, ha⟩, getD_set_ite]
    by_cases hlen : tgt < stores.length
    · rw [if_pos ⟨hj.symm, hlen⟩, hstore', hj, ha, eventsFor_storeSet,
        if_pos rfl, List.filter_append]
      have h1 : (eventsFor (stores.getD tgt []) event.aggregateId).filter
          (fun e => e.version != event.version) =
          eventsFor (stores.getD tgt []) event.aggregateId := by
        rw [List.filter_eq_self]
        intro e he
        rcases List.any_eq_false.mp hany with hall
        have := hall e he
        simpa using this
      have h2 : [resolveTimestamp event now].filter
          (fun e => e.version != event.version) = [] := by
        simp [resolveTimestamp]
      rw [h1, h2, List.append_nil]
    · rw [if_neg (fun hh => hlen hh.2)]
      have hj' : stores.length ≤ j := by omega
      rw [List.getD_eq_default _ _ hj']
      simp [eventsFor]
  · rw [if_neg hcond, getD_set_ite]
    by_cases hj : j = tgt
    · by_cases hlen : tgt < stores.length
      · rw [if_pos ⟨hj.symm, hlen⟩, hstore', hj, eventsFor_storeSet]
        have ha : ¬ a = event.aggregateId := fun hh => hcond ⟨hj, hh⟩
        rw [if_neg ha]
      · rw [if_neg (fun hh => hlen hh.2)]
    · rw [if_neg (fun hh => hj hh.1.symm)]

theorem pushEventGroupLoop_error_obsEq (now : String) :
    ∀ (ges : List GroupedEvent) (stores : List EventLog)
      (committed : List (Nat × String × Nat)) (acc : List Event)
      (e : GroupError) (final : List EventLog),
      pushEventGroupLoop now ges stores committed acc = (.error e, final) →
      ObsEq final (rollbackAll committed stores) := by
  intro ges
  induction ges with
  | nil =>
    intro stores committed acc e final h
    exact absurd (congrArg Prod.fst h) (by simp [pushEventGroupLoop])
  | cons ge rest ih =>
    intro stores committed acc e final h
    rw [pushEventGroupLoop] at h
    rcases hpush : pushEventSync ((ge.context.map (fun c => c.eventStoreId)).getD "")
        now ge.event (stores.getD ge.targetLog []) with ⟨r, st'⟩
    rw [hpush] at h
    cases r with
    | ok persisted =>
      simp only at h
      have hrec := ih (stores.set ge.targetLog st')
        ((ge.targetLog, ge.event.aggregateId, ge.event.version) :: committed)
        (persisted :: acc) e final h
      refine obsEq_trans hrec ?_
      show ObsEq (rollbackAll committed (undoCommitted (stores.set ge.targetLog st')
        (ge.targetLog, ge.event.aggregateId, ge.event.version)))
        (rollbackAll committed stores)
      exact obsEq_rollbackAll
        (obsEq_undo_push stores ge.targetLog _ now ge.event persisted st' hpush)
        committed
    | error err =>
      simp only at h
      have hfinal : final = rollbackAll committed stores :=
        (congrArg Prod.snd h).symm
      rw [hfinal]
      exact obsEq_refl _

/-- C1: whenever `pushEventGroup` surfaces an error (in particular when a
member's `pushEventSync` throws), the triggering error is rethrown to the
caller and every previously committed member event has been rolled back, so
that afterwards every aggregate of every involved log holds exactly the event
sequence it held before the call. -/
theorem pushEventGroup_failure_restores_logs (receiverFamily : AdapterFamily)
    (now : String) (ges : List GroupedEvent) (stores : List EventLog)
    (e : GroupError)
    (h : (pushEventGroup receiverFamily now ges stores).1 = .error e) :
    ∀ j a,
      eventsFor ((pushEventGroup receiverFamily now ges stores).2.getD j []) a =
        eventsFor (stores.getD j []) a := by
  unfold pushEventGroup at h ⊢
  by_cases h1 : ges.any (fun ge => ge.context.isNone) = true
  · intro j a
    rw [if_pos h1]
  · rw [if_neg h1] at h ⊢
    by_cases h2 : ges.any (fun ge => ge.adapterFamily != receiverFamily) = true
    · intro j a
      rw [if_pos h2]
    · rw [if_neg h2] at h ⊢
      rcases hloop : pushEventGroupLoop now ges stores [] [] with ⟨r, final⟩
      cases r with
      | ok res =>
        rw [hloop] at h
        exact Except.noConfusion h
      | error e' =>
        intro j a
        have := pushEventGroupLoop_error_obsEq now ges stores [] [] e' final hloop
        exact this j a

theorem pushEventGroup_failure_restores_logs_witness :
    (pushEventGroup .inMemory "t1" [c1GroupA, c1GroupB] c1Stores).1 =
      .error (.pushFailed (.eventAlreadyExists ⟨"B", "agg2", 1⟩)) ∧
    eventsFor ((pushEventGroup .inMemory "t1" [c1GroupA, c1GroupB]
      c1Stores).2.getD 0 []) "agg1" = [] ∧
    eventsFor ((pushEventGroup .inMemory "t1" [c1GroupA, c1GroupB]
      c1Stores).2.getD 1 []) "agg2" = [⟨"agg2", 1, "T", some "t0"⟩] :=
  ⟨by rfl,
   (pushEventGroup_failure_restores_logs .inMemory "t1" [c1GroupA, c1GroupB]
     c1Stores (.pushFailed (.eventAlreadyExists ⟨"B", "agg2", 1⟩)) (by rfl)
     0 "agg1").trans (by rfl),
   (pushEventGroup_failure_restores_logs .inMemory "t1" [c1GroupA, c1GroupB]
     c1Stores (.pushFailed (.eventAlreadyExists ⟨"B", "agg2", 1⟩)) (by rfl)
     1 "agg2").trans (by rfl)⟩

/-- C2: pushing an event whose `(aggregateId, version)` pair is already
present fails with `EventAlreadyExistsError` carrying the store id, aggregate
id and version, leaves the log unchanged, and in particular preserves the
event count of every aggregate. -/
theorem pushEvent_duplicate_fails_unchanged (eventStoreId now : String)
    (event : Event) (store : EventLog)
    (h : ∃ e ∈ eventsFor store event.aggregateId, e.version = event.version) :
    pushEvent eventStoreId now event store =
      (.error (.eventAlreadyExists
        ⟨eventStoreId, event.aggregateId, event.version⟩), store) ∧
    ∀ a, (eventsFor (pushEvent eventStoreId now event store).2 a).length =
      (eventsFor store a).length := by
  have hany : (eventsFor store event.aggregateId).any
      (fun e => e.version == event.version) = true := by
    rcases h with ⟨e, he, hv⟩
    exact List.any_eq_true.mpr ⟨e, he, by simpa using hv⟩
  have h1 : pushEvent eventStoreId now event store =
      (.error (.eventAlreadyExists
        ⟨eventStoreId, event.aggregateId, event.version⟩), store) := by
    simp [pushEvent, pushEventSync, hany]
  exact ⟨h1, fun a => by rw [h1]⟩

theorem pushEvent_duplicate_fails_unchanged_witness :
    (∃ e ∈ eventsFor [("a", [⟨"a", 1, "T", some "t0"⟩])]
      (Event.mk "a" 1 "T" none).aggregateId,
        e.version = (Event.mk "a" 1 "T" none).version) ∧
    pushEvent "s" "t1" ⟨"a", 1, "T", none⟩ [("a", [⟨"a", 1, "T", some "t0"⟩])] =
      (.error (.eventAlreadyExists ⟨"s", "a", 1⟩),
        [("a", [⟨"a", 1, "T", some "t0"⟩])]) :=
  ⟨by decide,
   (pushEvent_duplicate_fails_unchanged "s" "t1" ⟨"a", 1, "T", none⟩
     [("a", [⟨"a", 1, "T", some "t0"⟩])] (by decide)).1⟩

/-- C4: `getEvents` on an aggregate with no events succeeds with the empty
sequence, whatever the options. -/
theorem getEvents_unknown_aggregate_empty (store : EventLog)
    (aggregateId : String) (options : GetEventsOptions)
    (h : eventsFor store aggregateId = []) :
    getEvents store aggregateId options = [] := by
  unfold getEvents
  rw [h]
  cases options.limit <;> simp

theorem getEvents_unknown_aggregate_empty_witness :
    eventsFor [("a", [⟨"a", 1, "T", some "t0"⟩])] "unknown" = [] ∧
    getEvents [("a", [⟨"a", 1, "T", some "t0"⟩])] "unknown"
      { minVersion := some 1, limit := some 3, reverse := true } = [] :=
  ⟨by decide,
   getEvents_unknown_aggregate_empty [("a", [⟨"a", 1, "T", some "t0"⟩])]
     "unknown" { minVersion := some 1, limit := some 3, reverse := true }
     (by decide)⟩

/-- C5: pushing an event without a timestamp stores it with the current time
as its timestamp, returns the persisted event with that timestamp resolved,
and a later `getEvents` read returns the stored event with the same assigned
timestamp (appended after the aggregate's previous events). -/
theorem pushEvent_assigns_current_time (eventStoreId now : String)
    (event : Event) (store : EventLog)
    (h1 : event.timestamp = none)
    (h2 : ∀ e ∈ eventsFor store event.aggregateId,
      e.version ≠ event.version) :
    (pushEvent eventStoreId now event store).1 =
      .ok { event with timestamp := some now } ∧
    getEvents (pushEvent eventStoreId now event store).2
      event.aggregateId {} =
      eventsFor store event.aggregateId ++
        [{ event with timestamp := some now }] := by
  have hany : (eventsFor store event.aggregateId).any
      (fun e => e.version == event.version) = false := by
    rw [List.any_eq_false]
    intro e he
    simpa using h2 e he
  have hres : resolveTimestamp event now =
      { event with timestamp := some now } := by
    simp [resolveTimestamp, h1]
  have hpair : pushEvent eventStoreId now event store =
      (.ok { event with timestamp := some now },
        storeSet store event.aggregateId
          (eventsFor store event.aggregateId ++
            [{ event with timestamp := some now }])) := by
    rw [pushEvent, pushEventSync]
    simp only [hany, Bool.false_eq_true, if_false, hres]
  constructor
  · rw [hpair]
  · rw [hpair]
    show getEvents (storeSet store event.aggregateId _) event.aggregateId {} = _
    unfold getEvents
    rw [eventsFor_storeSet, if_pos rfl]
    simp [Option.all]

theorem pushEvent_assigns_current_time_witness :
    (Event.mk "a" 2 "T" none).timestamp = none ∧
    (∀ e ∈ eventsFor [("a", [⟨"a", 1, "T", some "t0"⟩])] "a",
      e.version ≠ 2) ∧
    (pushEvent "s" "t2" ⟨"a", 2, "T", none⟩
      [("a", [⟨"a", 1, "T", some "t0"⟩])]).1 = .ok ⟨"a", 2, "T", some "t2"⟩ ∧
    getEvents (pushEvent "s" "t2" ⟨"a", 2, "T", none⟩
      [("a", [⟨"a", 1, "T", some "t0"⟩])]).2 "a" {} =
      [⟨"a", 1, "T", some "t0"⟩, ⟨"a", 2, "T", some "t2"⟩] := by
  refine ⟨rfl, by decide, ?_, ?_⟩
  · exact (pushEvent_assigns_current_time "s" "t2" ⟨"a", 2, "T", none⟩
      [("a", [⟨"a", 1, "T", some "t0"⟩])] rfl (by decide)).1
  · exact ((pushEvent_assigns_current_time "s" "t2" ⟨"a", 2, "T", none⟩
      [("a", [⟨"a", 1, "T", some "t0"⟩])] rfl (by decide)).2).trans (by decide)

/-- C9: a grouped push whose members include one with a missing context or one
targeting a log of another storage-adapter family fails with a validation or
compatibility error and writes nothing to any log. -/
theorem pushEventGroup_precondition_failure (receiverFamily : AdapterFamily)
    (now : String) (ges : List GroupedEvent) (stores : List EventLog)
    (h : (∃ ge ∈ ges, ge.context = none) ∨
      (∃ ge ∈ ges, ge.adapterFamily ≠ receiverFamily)) :
    ((pushEventGroup receiverFamily now ges stores).1 =
        .error .contextMissing ∨
      (pushEventGroup receiverFamily now ges stores).1 =
        .error .incompatibleAdapter) ∧
    (pushEventGroup receiverFamily now ges stores).2 = stores := by
  by_cases h1 : ges.any (fun ge => ge.context.isNone) = true
  · refine ⟨Or.inl ?_, ?_⟩ <;> simp [pushEventGroup, h1]
  · have h2 : ges.any (fun ge => ge.adapterFamily != receiverFamily) = true := by
      rcases h with ⟨ge, hge, hctx⟩ | ⟨ge, hge, hfam⟩
      · exact absurd (List.any_eq_true.mpr ⟨ge, hge, by simp [hctx]⟩) h1
      · exact List.any_eq_true.mpr ⟨ge, hge, by simpa using hfam⟩
    refine ⟨Or.inr ?_, ?_⟩ <;>
      simp [pushEventGroup, Bool.of_not_eq_true h1, h2]

theorem pushEventGroup_precondition_failure_witness :
    ((∃ ge ∈ [c1GroupA, GroupedEvent.mk ⟨"agg2", 1, "T", none⟩ 1 .inMemory none],
        ge.context = none) ∨
      (∃ ge ∈ [c1GroupA, GroupedEvent.mk ⟨"agg2", 1, "T", none⟩ 1 .inMemory none],
        ge.adapterFamily ≠ AdapterFamily.inMemory)) ∧
    ((pushEventGroup .inMemory "t1"
        [c1GroupA, GroupedEvent.mk ⟨"agg2", 1, "T", none⟩ 1 .inMemory none]
        c1Stores).1 = .error .contextMissing ∨
      (pushEventGroup .inMemory "t1"
        [c1GroupA, GroupedEvent.mk ⟨"agg2", 1, "T", none⟩ 1 .inMemory none]
        c1Stores).1 = .error .incompatibleAdapter) ∧
    (pushEventGroup .inMemory "t1"
      [c1GroupA, GroupedEvent.mk ⟨"agg2", 1, "T", none⟩ 1 .inMemory none]
      c1Stores).2 = c1Stores :=
  ⟨Or.inl (by decide),
   pushEventGroup_precondition_failure .inMemory "t1"
     [c1GroupA, GroupedEvent.mk ⟨"agg2", 1, "T", none⟩ 1 .inMemory none]
     c1Stores (Or.inl (by decide))⟩

/-! ### Round-trip of the pagination token -/

theorem parseCount_encodeCount (n : Nat) (rest : List Char) :
    parseCount (encodeCount n ++ rest) = some (n, rest) := by
  induction n with
  | zero => rfl
  | succ n ih =>
    have h1 : encodeCount (n + 1) ++ rest = '1' :: (encodeCount n ++ rest) := by
      simp [encodeCount, List.replicate_succ]
    have hne : ¬ ('1' : Char) = ',' := by decide
    rw [h1, parseCount, if_neg hne, if_pos rfl, ih]

theorem parseOptNat_encodeOptNat (o : Option Nat) (rest : List Char) :
    parseOptNat (encodeOptNat o ++ rest) = some (o, rest) := by
  cases o with
  | none => rfl
  | some n =>
    show parseOptNat ('S' :: (encodeCount n ++ rest)) = some (some n, rest)
    rw [parseOptNat, parseCount_encodeCount]

theorem parseOptBool_encodeOptBool (o : Option Bool) (rest : List Char) :
    parseOptBool (encodeOptBool o ++ rest) = some (o, rest) := by
  cases o with
  | none => rfl
  | some b => cases b <;> rfl

theorem parseOptStr_encodeOptStr (o : Option String) (rest : List Char) :
    parseOptStr (encodeOptStr o ++ rest) = some (o, rest) := by
  cases o with
  | none => rfl
  | some s =>
    show parseOptStr ('S' :: (encodeCount s.length ++ s.data ++ rest)) =
      some (some s, rest)
    rw [parseOptStr, List.append_assoc, parseCount_encodeCount]
    have hle : s.length ≤ (s.data ++ rest).length := by
      show s.data.length ≤ _
      simp
    show (if s.length ≤ (s.data ++ rest).length then
        some (some (String.mk ((s.data ++ rest).take s.length)),
          (s.data ++ rest).drop s.length)
      else none) = some (some s, rest)
    rw [if_pos hle]
    have htake : (s.data ++ rest).take s.length = s.data := List.take_left _ _
    have hdrop : (s.data ++ rest).drop s.length = rest := List.drop_left _ _
    rw [htake, hdrop]

theorem decodeToken_encodeToken (t : ParsedPageToken) :
    decodeToken (encodeToken t) = some t := by
  obtain ⟨lim, a, b, r, k⟩ := t
  show decodeToken ⟨encodeOptNat lim ++ encodeOptStr a ++ encodeOptStr b ++
    encodeOptBool r ++ encodeOptStr k⟩ = _
  unfold decodeToken
  have hdata : (String.mk (encodeOptNat lim ++ encodeOptStr a ++
      encodeOptStr b ++ encodeOptBool r ++ encodeOptStr k)).data =
      encodeOptNat lim ++ (encodeOptStr a ++ (encodeOptStr b ++
        (encodeOptBool r ++ (encodeOptStr k ++ [])))) := by
    simp
  rw [hdata]
  simp only [parseOptNat_encodeOptNat, parseOptStr_encodeOptStr,
    parseOptBool_encodeOptBool]
  rfl

/-- C8: encoding filter fields and `lastEvaluatedKey` into a pagination token
and decoding it recovers every field exactly, and a `listAggregateIds` call
given only that token runs with exactly the filter the token encodes
(other options are ignored), reproducing the original call's semantics. -/
theorem pageToken_roundtrip_and_semantics (t : ParsedPageToken)
    (options : ListAggregateIdsOptions) (store : EventLog) :
    decodeToken (encodeToken t) = some t ∧
    listAggregateIds { options with pageToken := some (encodeToken t) } store =
      listAggregateIdsResolved
        ⟨t.limit, t.initialEventAfter, t.initialEventBefore,
          t.reverse.getD false, t.lastEvaluatedKey⟩ store :=
  ⟨decodeToken_encodeToken t,
   by simp [listAggregateIds, resolveFilter, decodeToken_encodeToken]⟩

/-- C3: `getEvents` returns exactly the stored events with versions in the
inclusive `[minVersion, maxVersion]` range, ascending by version when
`reverse` is unset and descending when set, and `limit` truncates the
reordered range-filtered sequence to its first `k` elements. -/
theorem getEvents_range_order_limit (store : EventLog) (aggregateId : String)
    (m n k : Nat)
    (h : (eventsFor store aggregateId).Pairwise
      (fun a b => a.version < b.version)) :
    (∀ e, e ∈ getEvents store aggregateId
        { minVersion := some m, maxVersion := some n } ↔
      (e ∈ eventsFor store aggregateId ∧ m ≤ e.version ∧ e.version ≤ n)) ∧
    (getEvents store aggregateId
        { minVersion := some m, maxVersion := some n }).Pairwise
      (fun a b => a.version < b.version) ∧
    getEvents store aggregateId
        { minVersion := some m, maxVersion := some n, reverse := true } =
      (getEvents store aggregateId
        { minVersion := some m, maxVersion := some n }).reverse ∧
    (getEvents store aggregateId
        { minVersion := some m, maxVersion := some n, reverse := true }).Pairwise
      (fun a b => b.version < a.version) ∧
    (∀ r, getEvents store aggregateId
        { minVersion := some m, maxVersion := some n, limit := some k,
          reverse := r } =
      (getEvents store aggregateId
        { minVersion := some m, maxVersion := some n, reverse := r }).take k) := by
  refine ⟨?_, ?_, ?_, ?_, ?_⟩
  · intro e
    simp [getEvents, List.mem_filter, Option.all]
  · exact List.Pairwise.sublist (List.filter_sublist _) h
  · rfl
  · rw [show getEvents store aggregateId
        { minVersion := some m, maxVersion := some n, reverse := true } =
      (getEvents store aggregateId
        { minVersion := some m, maxVersion := some n }).reverse from rfl]
    rw [List.pairwise_reverse]
    exact List.Pairwise.sublist (List.filter_sublist _) h
  · intro r
    cases r <;> rfl

theorem getEvents_range_order_limit_witness :
    (eventsFor [("x", [⟨"x", 1, "T", some "t1"⟩, ⟨"x", 2, "T", some "t2"⟩])]
      "x").Pairwise (fun a b => a.version < b.version) ∧
    getEvents [("x", [⟨"x", 1, "T", some "t1"⟩, ⟨"x", 2, "T", some "t2"⟩])]
      "x" { minVersion := some 1, maxVersion := some 2, limit := some 1,
            reverse := true } = [⟨"x", 2, "T", some "t2"⟩] :=
  ⟨by decide,
   ((getEvents_range_order_limit
     [("x", [⟨"x", 1, "T", some "t1"⟩, ⟨"x", 2, "T", some "t2"⟩])] "x" 1 2 1
     (by decide)).2.2.2.2 true).trans (by decide)⟩

/-! ### The retry loop of the JSON-schema command wrapper -/

theorem wrappedHandlerLoop_stop_ok {O : Type}
    (attempts : Nat → HandlerOutcome O) (idx num r : Nat)
    (calls : List (EventAlreadyExistsData × Nat × Nat)) (o : O)
    (h : attempts idx = .ok o) :
    wrappedHandlerLoop attempts idx num r calls = ⟨.ok o, idx + 1, calls⟩ := by
  rw [wrappedHandlerLoop, h]

theorem wrappedHandlerLoop_stop_other {O : Type}
    (attempts : Nat → HandlerOutcome O) (idx num r : Nat)
    (calls : List (EventAlreadyExistsData × Nat × Nat)) (e : String)
    (h : attempts idx = .otherError e) :
    wrappedHandlerLoop attempts idx num r calls =
      ⟨.error (.other e), idx + 1, calls⟩ := by
  rw [wrappedHandlerLoop, h]

theorem wrappedHandlerLoop_stop_eae {O : Type}
    (attempts : Nat → HandlerOutcome O) (idx num : Nat)
    (calls : List (EventAlreadyExistsData × Nat × Nat))
    (err : EventAlreadyExistsData)
    (h : attempts idx = .eventAlreadyExists err) :
    wrappedHandlerLoop attempts idx num 0 calls =
      ⟨.error (.eventAlreadyExists err), idx + 1,
        calls ++ [(err, num, 0)]⟩ := by
  rw [wrappedHandlerLoop, h]

theorem wrappedHandlerLoop_step_eae {O : Type}
    (attempts : Nat → HandlerOutcome O) (idx num r : Nat)
    (calls : List (EventAlreadyExistsData × Nat × Nat))
    (err : EventAlreadyExistsData)
    (h : attempts idx = .eventAlreadyExists err) :
    wrappedHandlerLoop attempts idx num (r + 1) calls =
      wrappedHandlerLoop attempts (idx + 1) (num + 1) r
        (calls ++ [(err, num, r + 1)]) := by
  rw [wrappedHandlerLoop, h]

theorem wrappedHandlerLoop_all_eae {O : Type}
    (attempts : Nat → HandlerOutcome O) (f : Nat → EventAlreadyExistsData) :
    ∀ (r idx num : Nat) (calls : List (EventAlreadyExistsData × Nat × Nat)),
    (∀ j, attempts j = .eventAlreadyExists (f j)) →
    wrappedHandlerLoop attempts idx num r calls =
      ⟨.error (.eventAlreadyExists (f (idx + r))), idx + r + 1,
        calls ++ (List.range (r + 1)).map
          (fun j => (f (idx + j), num + j, r - j))⟩ := by
  intro r
  induction r with
  | zero =>
    intro idx num calls hall
    rw [wrappedHandlerLoop_stop_eae attempts idx num calls (f idx) (hall idx)]
    have hr : List.range 1 = [0] := rfl
    rw [hr]
    simp
  | succ r ih =>
    intro idx num calls hall
    rw [wrappedHandlerLoop_step_eae attempts idx num r calls (f idx) (hall idx),
      ih (idx + 1) (num + 1) _ hall]
    have e1 : idx + 1 + r = idx + (r + 1) := by omega
    have e2 : (calls ++ [(f idx, num, r + 1)]) ++
        (List.range (r + 1)).map
          (fun j => (f (idx + 1 + j), num + 1 + j, r - j)) =
        calls ++ (List.range (r + 1 + 1)).map
          (fun j => (f (idx + j), num + j, r + 1 - j)) := by
      rw [List.append_assoc]
      refine congrArg (calls ++ ·) ?_
      rw [List.range_succ_eq_map (r + 1), List.map_cons, List.map_map,
        List.singleton_append]
      refine congrArg₂ (· :: ·) ?_ ?_
      · simp
      · refine List.map_congr_left ?_
        intro j _
        show (f (idx + 1 + j), num + 1 + j, r - j) =
          (f (idx + (j + 1)), num + (j + 1), r + 1 - (j + 1))
        rw [show idx + 1 + j = idx + (j + 1) from by omega,
          show num + 1 + j = num + (j + 1) from by omega,
          show r - j = r + 1 - (j + 1) from by omega]
    rw [e1, e2]

theorem wrappedHandlerLoop_prefix_ok {O : Type}
    (attempts : Nat → HandlerOutcome O) (f : Nat → EventAlreadyExistsData)
    (o : O) :
    ∀ (k r idx num : Nat) (calls : List (EventAlreadyExistsData × Nat × Nat)),
    k ≤ r →
    (∀ j < k, attempts (idx + j) = .eventAlreadyExists (f (idx + j))) →
    attempts (idx + k) = .ok o →
    wrappedHandlerLoop attempts idx num r calls =
      ⟨.ok o, idx + k + 1,
        calls ++ (List.range k).map
          (fun j => (f (idx + j), num + j, r - j))⟩ := by
  intro k
  induction k with
  | zero =>
    intro r idx num calls _ _ hk
    rw [show idx + 0 = idx from rfl] at hk
    rw [wrappedHandlerLoop_stop_ok attempts idx num r calls o hk]
    simp
  | succ k ih =>
    intro r idx num calls hkr hpre hk
    have h0 : attempts idx = .eventAlreadyExists (f idx) := by
      have := hpre 0 (Nat.succ_pos k)
      simpa using this
    rcases r with _ | r'
    · omega
    · rw [wrappedHandlerLoop_step_eae attempts idx num r' calls (f idx) h0,
        ih r' (idx + 1) (num + 1) _ (by omega)
          (fun j hj => by
            have := hpre (j + 1) (by omega)
            rw [show idx + (j + 1) = idx + 1 + j from by omega] at this
            exact this)
          (by rw [show idx + 1 + k = idx + (k + 1) from by omega]; exact hk)]
      have e1 : idx + 1 + k = idx + (k + 1) := by omega
      have e2 : (calls ++ [(f idx, num, r' + 1)]) ++
          (List.range k).map
            (fun j => (f (idx + 1 + j), num + 1 + j, r' - j)) =
          calls ++ (List.range (k + 1)).map
            (fun j => (f (idx + j), num + j, r' + 1 - j)) := by
        rw [List.append_assoc]
        refine congrArg (calls ++ ·) ?_
        rw [List.range_succ_eq_map k, List.map_cons, List.map_map,
          List.singleton_append]
        refine congrArg₂ (· :: ·) ?_ ?_
        · simp
        · refine List.map_congr_left ?_
          intro j _
          show (f (idx + 1 + j), num + 1 + j, r' - j) =
            (f (idx + (j + 1)), num + (j + 1), r' + 1 - (j + 1))
          rw [show idx + 1 + j = idx + (j + 1) from by omega,
            show num + 1 + j = num + (j + 1) from by omega,
            show r' - j = r' + 1 - (j + 1) from by omega]
      rw [e1, e2]

theorem wrappedHandlerLoop_prefix_other {O : Type}
    (attempts : Nat → HandlerOutcome O) (f : Nat → EventAlreadyExistsData)
    (e : String) :
    ∀ (k r idx num : Nat) (calls : List (EventAlreadyExistsData × Nat × Nat)),
    k ≤ r →
    (∀ j < k, attempts (idx + j) = .eventAlreadyExists (f (idx + j))) →
    attempts (idx + k) = .otherError e →
    wrappedHandlerLoop attempts idx num r calls =
      ⟨.error (.other e), idx + k + 1,
        calls ++ (List.range k).map
          (fun j => (f (idx + j), num + j, r - j))⟩ := by
  intro k
  induction k with
  | zero =>
    intro r idx num calls _ _ hk
    rw [show idx + 0 = idx from rfl] at hk
    rw [wrappedHandlerLoop_stop_other attempts idx num r calls e hk]
    simp
  | succ k ih =>
    intro r idx num calls hkr hpre hk
    have h0 : attempts idx = .eventAlreadyExists (f idx) := by
      have := hpre 0 (Nat.succ_pos k)
      simpa using this
    rcases r with _ | r'
    · omega
    · rw [wrappedHandlerLoop_step_eae attempts idx num r' calls (f idx) h0,
        ih r' (idx + 1) (num + 1) _ (by omega)
          (fun j hj => by
            have := hpre (j + 1) (by omega)
            rw [show idx + (j + 1) = idx + 1 + j from by omega] at this
            exact this)
          (by rw [show idx + 1 + k = idx + (k + 1) from by omega]; exact hk)]
      have e1 : idx + 1 + k = idx + (k + 1) := by omega
      have e2 : (calls ++ [(f idx, num, r' + 1)]) ++
          (List.range k).map
            (fun j => (f (idx + 1 + j), num + 1 + j, r' - j)) =
          calls ++ (List.range (k + 1)).map
            (fun j => (f (idx + j), num + j, r' + 1 - j)) := by
        rw [List.append_assoc]
        refine congrArg (calls ++ ·) ?_
        rw [List.range_succ_eq_map k, List.map_cons, List.map_map,
          List.singleton_append]
        refine congrArg₂ (· :: ·) ?_ ?_
        · simp
        · refine List.map_congr_left ?_
          intro j _
          show (f (idx + 1 + j), num + 1 + j, r' - j) =
            (f (idx + (j + 1)), num + (j + 1), r' + 1 - (j + 1))
          rw [show idx + 1 + j = idx + (j + 1) from by omega,
            show num + 1 + j = num + (j + 1) from by omega,
            show r' - j = r' + 1 - (j + 1) from by omega]
      rw [e1, e2]

/-- C10: the wrapped handler built by the `JSONSchemaCommand` constructor
returns the result of the first user-handler invocation that succeeds; a
non-`EventAlreadyExistsError` is rethrown immediately with no further
invocation and no `onEventAlreadyExists` call for it; and when every
invocation throws `EventAlreadyExistsError` the user handler runs exactly
`eventAlreadyExistsRetries + 1` times, `onEventAlreadyExists` is awaited
after each failure (including the last) with the attempt number and retries
left, and the last error is rethrown. -/
theorem jsonSchemaCommand_handler_retry_behavior {O : Type}
    (retries : Nat) (attempts : Nat → HandlerOutcome O)
    (f : Nat → EventAlreadyExistsData) (o : O) (e : String) (k : Nat) :
    (k ≤ retries →
      (∀ j < k, attempts j = .eventAlreadyExists (f j)) →
      attempts k = .ok o →
      wrappedHandler retries attempts =
        ⟨.ok o, k + 1,
          (List.range k).map (fun j => (f j, 1 + j, retries - j))⟩) ∧
    (k ≤ retries →
      (∀ j < k, attempts j = .eventAlreadyExists (f j)) →
      attempts k = .otherError e →
      wrappedHandler retries attempts =
        ⟨.error (.other e), k + 1,
          (List.range k).map (fun j => (f j, 1 + j, retries - j))⟩) ∧
    ((∀ j, attempts j = .eventAlreadyExists (f j)) →
      wrappedHandler retries attempts =
        ⟨.error (.eventAlreadyExists (f retries)), retries + 1,
          (List.range (retries + 1)).map
            (fun j => (f j, 1 + j, retries - j))⟩) := by
  refine ⟨?_, ?_, ?_⟩
  · intro hkr hpre hk
    rw [wrappedHandler, wrappedHandlerLoop_prefix_ok attempts f o k retries 0 1
      [] hkr (fun j hj => by simpa using hpre j hj) (by simpa using hk)]
    simp
  · intro hkr hpre hk
    rw [wrappedHandler, wrappedHandlerLoop_prefix_other attempts f e k retries
      0 1 [] hkr (fun j hj => by simpa using hpre j hj) (by simpa using hk)]
    simp
  · intro hall
    rw [wrappedHandler, wrappedHandlerLoop_all_eae attempts f retries 0 1 []
      hall]
    simp

theorem jsonSchemaCommand_handler_retry_behavior_witness :
    wrappedHandler (O := Nat) defaultEventAlreadyExistsRetries
        (fun _ => .eventAlreadyExists ⟨"s", "a", 1⟩) =
      ⟨.error (.eventAlreadyExists ⟨"s", "a", 1⟩), 3,
        [(⟨"s", "a", 1⟩, 1, 2), (⟨"s", "a", 1⟩, 2, 1), (⟨"s", "a", 1⟩, 3, 0)]⟩ :=
  ((jsonSchemaCommand_handler_retry_behavior 2
    (fun _ => .eventAlreadyExists ⟨"s", "a", 1⟩)
    (fun _ => ⟨"s", "a", 1⟩) 0 "" 0).2.2 (fun _ => rfl)).trans rfl

/-! ### Ordering facts about the lexicographic comparison -/

theorem lexLe_total : ∀ (as bs : List Char),
    lexLe as bs = true ∨ lexLe bs as = true := by
  intro as
  induction as with
  | nil => intro bs; left; rfl
  | cons a as ih =>
    intro bs
    cases bs with
    | nil => right; rfl
    | cons b bs' =>
      by_cases h1 : a.toNat < b.toNat
      · left
        rw [lexLe, if_pos h1]
      · by_cases h2 : b.toNat < a.toNat
        · right
          rw [lexLe, if_pos h2]
        · rcases ih bs' with h | h
          · left
            rw [lexLe, if_neg h1, if_neg h2]
            exact h
          · right
            rw [lexLe, if_neg h2, if_neg h1]
            exact h

theorem lexLe_trans : ∀ (as bs cs : List Char),
    lexLe as bs = true → lexLe bs cs = true → lexLe as cs = true := by
  intro as
  induction as with
  | nil => intro bs cs _ _; rfl
  | cons a as ih =>
    intro bs cs h1 h2
    cases bs with
    | nil => exact absurd h1 (by rw [lexLe]; simp)
    | cons b bs' =>
      cases cs with
      | nil => exact absurd h2 (by rw [lexLe]; simp)
      | cons c cs' =>
        rw [lexLe] at h1 h2 ⊢
        by_cases hac : a.toNat < c.toNat
        · rw [if_pos hac]
        · rw [if_neg hac]
          have hba : ¬ b.toNat < a.toNat := by
            intro hh
            by_cases hab : a.toNat < b.toNat
            · omega
            · rw [if_neg hab, if_pos hh] at h1
              exact Bool.noConfusion h1
          have hcb : ¬ c.toNat < b.toNat := by
            intro hh
            by_cases hbc : b.toNat < c.toNat
            · omega
            · rw [if_neg hbc, if_pos hh] at h2
              exact Bool.noConfusion h2
          by_cases hca : c.toNat < a.toNat
          · omega
          · rw [if_neg hca]
            have hab : ¬ a.toNat < b.toNat := by omega
            have hbc : ¬ b.toNat < c.toNat := by omega
            rw [if_neg hab, if_neg hba] at h1
            rw [if_neg hbc, if_neg hcb] at h2
            exact ih bs' cs' h1 h2

theorem strLe_total (a b : String) : strLe a b = true ∨ strLe b a = true :=
  lexLe_total a.data b.data

theorem strLe_trans {a b c : String} (h1 : strLe a b = true)
    (h2 : strLe b c = true) : strLe a c = true :=
  lexLe_trans a.data b.data c.data h1 h2

/-! ### The aggregate-id listing pipeline -/

theorem mem_candidates {store : EventLog} {p : String × String} :
    p ∈ store.filterMap
        (fun q => (initialEventTs q.2).map (fun ts => (q.1, ts))) ↔
      ∃ es, (p.1, es) ∈ store ∧ initialEventTs es = some p.2 := by
  rw [List.mem_filterMap]
  constructor
  · rintro ⟨q, hq, hmap⟩
    rcases Option.map_eq_some'.mp hmap with ⟨ts, hts, heq⟩
    refine ⟨q.2, ?_, ?_⟩
    · rw [show p.1 = q.1 from by rw [← heq]]
      exact hq
    · rw [hts]
      rw [show p.2 = ts from by rw [← heq]]
  · rintro ⟨es, hmem, hts⟩
    exact ⟨(p.1, es), hmem, by simp [hts]⟩

theorem eventsFor_of_mem_nodup {store : EventLog}
    (hn : (store.map Prod.fst).Nodup) {a : String} {es : List Event}
    (hmem : (a, es) ∈ store) : eventsFor store a = es := by
  induction store with
  | nil => cases hmem
  | cons p ps ih =>
    rw [eventsFor_cons]
    rcases List.mem_cons.mp hmem with heq | hmem'
    · rw [← heq]
      simp
    · have hn' : (p.1 :: ps.map Prod.fst).Nodup := by
        rw [List.map_cons] at hn
        exact hn
      have hnc := List.nodup_cons.mp hn'
      have hpa : ¬ (p.1 == a) = true := by
        intro hc
        refine hnc.1 ?_
        rw [beq_iff_eq.mp hc]
        exact List.mem_map.mpr ⟨(a, es), hmem', rfl⟩
      rw [if_neg hpa]
      exact ih hnc.2 hmem'

theorem keys_candidates_sublist (store : EventLog) :
    ((store.filterMap
      (fun q => (initialEventTs q.2).map (fun ts => (q.1, ts)))).map
        Prod.fst).Sublist (store.map Prod.fst) := by
  induction store with
  | nil => simp
  | cons p ps ih =>
    rw [List.filterMap_cons]
    cases h : (initialEventTs p.2).map (fun ts => (p.1, ts)) with
    | none =>
      rw [List.map_cons]
      exact ih.cons _
    | some c =>
      have hc : c.1 = p.1 := by
        rcases Option.map_eq_some'.mp h with ⟨ts, _, heq⟩
        rw [← heq]
      rw [List.map_cons, List.map_cons, hc]
      exact ih.cons₂ _

theorem baseAggregateIds_perm (after before : Option String) (rev : Bool)
    (store : EventLog) :
    (baseAggregateIds after before rev store).Perm
      (((store.filterMap
        (fun q => (initialEventTs q.2).map (fun ts => (q.1, ts)))).filter
          (fun c => tsInRange after before c.2)).map Prod.fst) := by
  unfold baseAggregateIds
  cases rev
  · exact (List.perm_insertionSort _ _).map Prod.fst
  · exact (List.perm_insertionSort _ _).map Prod.fst

theorem baseAggregateIds_nodup (after before : Option String) (rev : Bool)
    (store : EventLog) (hn : (store.map Prod.fst).Nodup) :
    (baseAggregateIds after before rev store).Nodup := by
  have hcand := List.Nodup.sublist (keys_candidates_sublist store) hn
  have hin : (((store.filterMap
      (fun q => (initialEventTs q.2).map (fun ts => (q.1, ts)))).filter
        (fun c => tsInRange after before c.2)).map Prod.fst).Nodup :=
    List.Nodup.sublist ((List.filter_sublist _).map Prod.fst) hcand
  exact (baseAggregateIds_perm after before rev store).nodup_iff.mpr hin

theorem mem_baseAggregateIds {after before : Option String} {rev : Bool}
    {store : EventLog} (hn : (store.map Prod.fst).Nodup) {id : String} :
    id ∈ baseAggregateIds after before rev store ↔
      ∃ ts, aggregateInitialTs store id = some ts ∧
        tsInRange after before ts = true := by
  rw [(baseAggregateIds_perm after before rev store).mem_iff]
  constructor
  · intro hid
    rcases List.mem_map.mp hid with ⟨p, hp, hfst⟩
    have hfil := List.mem_filter.mp hp
    rcases mem_candidates.mp hfil.1 with ⟨es, hmem, hts⟩
    refine ⟨p.2, ?_, hfil.2⟩
    rw [← hfst]
    unfold aggregateInitialTs
    rw [eventsFor_of_mem_nodup hn hmem]
    exact hts
  · rintro ⟨ts, hts, hin⟩
    unfold aggregateInitialTs at hts
    cases hfind : store.find? (fun q => q.1 == id) with
    | none =>
      rw [eventsFor, hfind] at hts
      exact absurd hts (by simp [initialEventTs])
    | some q =>
      have hq1 : q.1 = id := by
        have := List.find?_some hfind
        simpa using this
      have hmem : (id, q.2) ∈ store := by
        rw [← hq1]
        exact List.mem_of_find?_eq_some hfind
      have hev : eventsFor store id = q.2 := eventsFor_of_mem_nodup hn hmem
      refine List.mem_map.mpr ⟨(id, ts), ?_, rfl⟩
      refine List.mem_filter.mpr ⟨?_, hin⟩
      refine mem_candidates.mpr ⟨q.2, hmem, ?_⟩
      rw [← hev]
      exact hts

theorem baseAggregateIds_sorted (after before : Option String) (rev : Bool)
    (store : EventLog) (hn : (store.map Prod.fst).Nodup) :
    (baseAggregateIds after before rev store).Pairwise
      (fun i1 i2 => ∀ t1 t2, aggregateInitialTs store i1 = some t1 →
        aggregateInitialTs store i2 = some t2 →
        (if rev then strLe t2 t1 else strLe t1 t2) = true) := by
  have key : ∀ (p : String × String),
      p ∈ ((store.filterMap
        (fun q => (initialEventTs q.2).map (fun ts => (q.1, ts)))).filter
          (fun c => tsInRange after before c.2)) →
      aggregateInitialTs store p.1 = some p.2 := by
    intro p hp
    rcases mem_candidates.mp (List.mem_filter.mp hp).1 with ⟨es, hmem, hts⟩
    unfold aggregateInitialTs
    rw [eventsFor_of_mem_nodup hn hmem]
    exact hts
  unfold baseAggregateIds
  cases rev
  · rw [List.pairwise_map]
    haveI : IsTotal (String × String)
        (fun p q => strLe p.2 q.2 = true) := ⟨fun p q => strLe_total p.2 q.2⟩
    haveI : IsTrans (String × String)
        (fun p q => strLe p.2 q.2 = true) :=
      ⟨fun _ _ _ h1 h2 => strLe_trans h1 h2⟩
    have hsort := List.sorted_insertionSort
      (fun p q : String × String => strLe p.2 q.2 = true)
      ((store.filterMap
        (fun q => (initialEventTs q.2).map (fun ts => (q.1, ts)))).filter
          (fun c => tsInRange after before c.2))
    refine List.Pairwise.imp_of_mem ?_ hsort
    intro p q hp hq hpq t1 t2 ht1 ht2
    have hp' := key p ((List.perm_insertionSort _ _).mem_iff.mp hp)
    have hq' := key q ((List.perm_insertionSort _ _).mem_iff.mp hq)
    have e1 : p.2 = t1 := Option.some.inj (hp'.symm.trans ht1)
    have e2 : q.2 = t2 := Option.some.inj (hq'.symm.trans ht2)
    rw [← e1, ← e2]
    exact hpq
  · rw [List.pairwise_map]
    haveI : IsTotal (String × String)
        (fun p q => strLe q.2 p.2 = true) := ⟨fun p q => strLe_total q.2 p.2⟩
    haveI : IsTrans (String × String)
        (fun p q => strLe q.2 p.2 = true) :=
      ⟨fun _ _ _ h1 h2 => strLe_trans h2 h1⟩
    have hsort := List.sorted_insertionSort
      (fun p q : String × String => strLe q.2 p.2 = true)
      ((store.filterMap
        (fun q => (initialEventTs q.2).map (fun ts => (q.1, ts)))).filter
          (fun c => tsInRange after before c.2))
    refine List.Pairwise.imp_of_mem ?_ hsort
    intro p q hp hq hpq t1 t2 ht1 ht2
    have hp' := key p ((List.perm_insertionSort _ _).mem_iff.mp hp)
    have hq' := key q ((List.perm_insertionSort _ _).mem_iff.mp hq)
    have e1 : p.2 = t1 := Option.some.inj (hp'.symm.trans ht1)
    have e2 : q.2 = t2 := Option.some.inj (hq'.symm.trans ht2)
    rw [← e1, ← e2]
    exact hpq

theorem listAggregateIdsResolved_ids (f : ResolvedFilter) (store : EventLog) :
    (listAggregateIdsResolved f store).aggregateIds =
      match f.limit with
      | none => remainingAggregateIds f store
      | some k => (remainingAggregateIds f store).take k := by
  unfold listAggregateIdsResolved
  cases f.limit with
  | none => rfl
  | some k =>
    by_cases h : k < (remainingAggregateIds f store).length
    · simp [h]
    · simp [h]

theorem resolveFilter_no_token (options : ListAggregateIdsOptions)
    (htok : options.pageToken = none) :
    resolveFilter options =
      ⟨options.limit, options.initialEventAfter, options.initialEventBefore,
        options.reverse, none⟩ := by
  unfold resolveFilter
  rw [htok]

/-- C6: `listAggregateIds` discards aggregates whose initial-event timestamp
(the timestamp of the aggregate's lowest-version event) lies outside the
inclusive `[initialEventAfter, initialEventBefore]` bounds, orders the
remaining ids by initial timestamp (ascending, descending under `reverse`),
and returns at most `limit` ids from that order — all of them when no limit
is given. -/
theorem listAggregateIds_filter_sort_limit
    (options : ListAggregateIdsOptions) (store : EventLog)
    (hn : (store.map Prod.fst).Nodup) (htok : options.pageToken = none) :
    (∀ id ∈ (listAggregateIds options store).aggregateIds,
      ∃ ts, aggregateInitialTs store id = some ts ∧
        tsInRange options.initialEventAfter options.initialEventBefore ts =
          true) ∧
    ((listAggregateIds options store).aggregateIds.Pairwise
      (fun i1 i2 => ∀ t1 t2, aggregateInitialTs store i1 = some t1 →
        aggregateInitialTs store i2 = some t2 →
        (if options.reverse then strLe t2 t1 else strLe t1 t2) = true)) ∧
    (∀ k, options.limit = some k →
      (listAggregateIds options store).aggregateIds.length ≤ k) ∧
    (options.limit = none → ∀ p ∈ store, ∀ ts,
      initialEventTs p.2 = some ts →
      tsInRange options.initialEventAfter options.initialEventBefore ts =
        true →
      p.1 ∈ (listAggregateIds options store).aggregateIds) := by
  have hids : (listAggregateIds options store).aggregateIds =
      match options.limit with
      | none => baseAggregateIds options.initialEventAfter
          options.initialEventBefore options.reverse store
      | some k => (baseAggregateIds options.initialEventAfter
          options.initialEventBefore options.reverse store).take k := by
    rw [listAggregateIds, resolveFilter_no_token options htok,
      listAggregateIdsResolved_ids]
    cases options.limit <;> rfl
  refine ⟨?_, ?_, ?_, ?_⟩
  · intro id hid
    rw [hids] at hid
    have hbase : id ∈ baseAggregateIds options.initialEventAfter
        options.initialEventBefore options.reverse store := by
      cases hl : options.limit with
      | none => rw [hl] at hid; exact hid
      | some k =>
        rw [hl] at hid
        exact List.mem_of_mem_take hid
    exact (mem_baseAggregateIds hn).mp hbase
  · rw [hids]
    cases hl : options.limit with
    | none =>
      exact baseAggregateIds_sorted options.initialEventAfter
        options.initialEventBefore options.reverse store hn
    | some k =>
      exact List.Pairwise.sublist (List.take_sublist _ _)
        (baseAggregateIds_sorted options.initialEventAfter
          options.initialEventBefore options.reverse store hn)
  · intro k hk
    rw [hids, hk]
    exact List.length_take_le _ _
  · intro hl p hp ts hts hin
    rw [hids, hl]
    refine (mem_baseAggregateIds hn).mpr ⟨ts, ?_, hin⟩
    unfold aggregateInitialTs
    rw [eventsFor_of_mem_nodup hn (show (p.1, p.2) ∈ store from hp)]
    exact hts

theorem listAggregateIds_filter_sort_limit_witness :
    (([("b", [⟨"b", 1, "T", some "2022"⟩]),
       ("a", [⟨"a", 1, "T", some "2021"⟩]),
       ("c", [⟨"c", 1, "T", some "2023"⟩])] : EventLog).map Prod.fst).Nodup ∧
    (listAggregateIds {}
      [("b", [⟨"b", 1, "T", some "2022"⟩]),
       ("a", [⟨"a", 1, "T", some "2021"⟩]),
       ("c", [⟨"c", 1, "T", some "2023"⟩])]).aggregateIds = ["a", "b", "c"] ∧
    (listAggregateIds { initialEventAfter := some "2021-06",
                        initialEventBefore := some "2022-06" }
      [("b", [⟨"b", 1, "T", some "2022"⟩]),
       ("a", [⟨"a", 1, "T", some "2021"⟩]),
       ("c", [⟨"c", 1, "T", some "2023"⟩])]).aggregateIds = ["b"] ∧
    (∀ id ∈ (listAggregateIds {}
      [("b", [⟨"b", 1, "T", some "2022"⟩]),
       ("a", [⟨"a", 1, "T", some "2021"⟩]),
       ("c", [⟨"c", 1, "T", some "2023"⟩])]).aggregateIds,
      ∃ ts, aggregateInitialTs
        [("b", [⟨"b", 1, "T", some "2022"⟩]),
         ("a", [⟨"a", 1, "T", some "2021"⟩]),
         ("c", [⟨"c", 1, "T", some "2023"⟩])] id = some ts ∧
        tsInRange none none ts = true) :=
  ⟨by decide, by decide, by decide,
   (listAggregateIds_filter_sort_limit {}
     [("b", [⟨"b", 1, "T", some "2022"⟩]),
      ("a", [⟨"a", 1, "T", some "2021"⟩]),
      ("c", [⟨"c", 1, "T", some "2023"⟩])] (by decide) rfl).1⟩

/-! ### Pagination: resuming after the last evaluated key -/

theorem skipPast_suffix (lastKey : Option String) (ids : List String) :
    (skipPast lastKey ids) <:+ ids := by
  cases lastKey with
  | none => exact List.suffix_refl ids
  | some key =>
    exact List.IsSuffix.trans (List.drop_suffix _ _) (List.dropWhile_suffix _)

theorem dropWhile_append_all {p : String → Bool} {l1 : List String}
    (l2 : List String) (h : ∀ x ∈ l1, p x = true) :
    (l1 ++ l2).dropWhile p = l2.dropWhile p := by
  induction l1 with
  | nil => rfl
  | cons x xs ih =>
    rw [List.cons_append, List.dropWhile_cons, if_pos (h x (by simp))]
    exact ih (fun y hy => h y (by simp [hy]))

theorem take_getLast? (l : List String) (k : Nat) (h1 : 1 ≤ k)
    (h2 : k ≤ l.length) : (l.take k).getLast? = l[k - 1]? := by
  rw [List.getLast?_eq_getElem?, List.length_take]
  have hmin : min k l.length = k := by omega
  rw [hmin, List.getElem?_take]
  rw [if_pos (by omega)]

theorem skipPast_some_eq_drop (base l : List String) (hn : base.Nodup)
    (hsuf : l <:+ base) (k : Nat) (key : String) (h1 : 1 ≤ k)
    (h2 : k < l.length) (hkey : l[k - 1]? = some key) :
    skipPast (some key) base = l.drop k := by
  obtain ⟨pre, hpre⟩ := hsuf
  subst hpre
  have hk1 : k - 1 < l.length := by omega
  have hkeyel : l[k - 1] = key := by
    have := List.getElem?_eq_some.mp hkey
    rcases this with ⟨_, heq⟩
    exact heq
  have hsplit : l = l.take (k - 1) ++ (key :: l.drop k) := by
    conv_lhs => rw [← List.take_append_drop (k - 1) l]
    refine congrArg (l.take (k - 1) ++ ·) ?_
    rw [List.drop_eq_getElem_cons hk1, hkeyel,
      show k - 1 + 1 = k from by omega]
  have hsplitn := List.nodup_append.mp hn
  have hnl : l.Nodup := hsplitn.2.1
  have hkeymem : key ∈ l := by
    rw [hsplit]
    simp
  have hpre_ne : ∀ x ∈ pre, (x != key) = true := by
    intro x hx
    have : x ∉ l := hsplitn.2.2 hx
    simp
    intro hxe
    exact this (hxe ▸ hkeymem)
  have htake_ne : ∀ x ∈ l.take (k - 1), (x != key) = true := by
    intro x hx
    have hnl' : (l.take (k - 1) ++ (key :: l.drop k)).Nodup := by
      rw [← hsplit]
      exact hnl
    have hkeynot : key ∉ l.take (k - 1) ++ l.drop k :=
      (List.nodup_cons.mp (List.nodup_middle.mp hnl')).1
    simp
    intro hxe
    subst hxe
    exact hkeynot (List.mem_append.mpr (Or.inl hx))
  show ((pre ++ l).dropWhile (fun i => i != key)).drop 1 = l.drop k
  rw [dropWhile_append_all l hpre_ne]
  conv_lhs => rw [hsplit]
  rw [dropWhile_append_all _ htake_ne, List.dropWhile_cons]
  simp

theorem listAggregateIdsResolved_limit (f : ResolvedFilter) (k : Nat)
    (hf : f.limit = some k) (store : EventLog) :
    listAggregateIdsResolved f store =
      if k < (remainingAggregateIds f store).length then
        ⟨(remainingAggregateIds f store).take k,
          some (encodeToken ⟨some k, f.initialEventAfter,
            f.initialEventBefore, (if f.reverse then some true else none),
            ((remainingAggregateIds f store).take k).getLast?⟩)⟩
      else ⟨(remainingAggregateIds f store).take k, none⟩ := by
  unfold listAggregateIdsResolved
  rw [hf]

theorem resolveFilter_token_only (t : ParsedPageToken) :
    resolveFilter ⟨none, none, none, false, some (encodeToken t)⟩ =
      ⟨t.limit, t.initialEventAfter, t.initialEventBefore,
        t.reverse.getD false, t.lastEvaluatedKey⟩ := by
  simp [resolveFilter, decodeToken_encodeToken]

theorem collectAggregateIdPages_spec (store : EventLog)
    (after before : Option String) (rev : Bool) (k : Nat) (hk : 1 ≤ k)
    (hn : (baseAggregateIds after before rev store).Nodup) :
    ∀ (fuel : Nat) (options : ListAggregateIdsOptions)
      (lastKey : Option String),
    resolveFilter options = ⟨some k, after, before, rev, lastKey⟩ →
    (skipPast lastKey (baseAggregateIds after before rev store)).length ≤
      fuel →
    collectAggregateIdPages fuel options store =
      skipPast lastKey (baseAggregateIds after before rev store) := by
  intro fuel
  induction fuel with
  | zero =>
    intro options lastKey hres hlen
    have hnil : skipPast lastKey (baseAggregateIds after before rev store) =
        [] := List.eq_nil_of_length_eq_zero (by omega)
    rw [collectAggregateIdPages, hnil]
  | succ fuel ih =>
    intro options lastKey hres hlen
    have hrem : remainingAggregateIds ⟨some k, after, before, rev, lastKey⟩
        store = skipPast lastKey (baseAggregateIds after before rev store) :=
      rfl
    by_cases hklen : k < (skipPast lastKey
        (baseAggregateIds after before rev store)).length
    · have hcall : listAggregateIds options store =
          ⟨(skipPast lastKey (baseAggregateIds after before rev store)).take k,
            some (encodeToken ⟨some k, after, before,
              (if rev then some true else none),
              ((skipPast lastKey
                (baseAggregateIds after before rev store)).take k).getLast?⟩)⟩ := by
        rw [listAggregateIds, hres, listAggregateIdsResolved_limit _ k rfl,
          hrem, if_pos hklen]
      have hkey : ((skipPast lastKey
          (baseAggregateIds after before rev store)).take k).getLast? =
          (skipPast lastKey (baseAggregateIds after before rev store))[k - 1]? :=
        take_getLast? _ k hk (by omega)
      have hkey2 : ∃ key, (skipPast lastKey
          (baseAggregateIds after before rev store))[k - 1]? = some key := by
        refine ⟨(skipPast lastKey
          (baseAggregateIds after before rev store)).get ⟨k - 1, by omega⟩, ?_⟩
        exact List.getElem?_eq_getElem (by omega)
      rcases hkey2 with ⟨key, hkeyeq⟩
      have hdrop : skipPast (some key)
          (baseAggregateIds after before rev store) =
          (skipPast lastKey (baseAggregateIds after before rev store)).drop
            k :=
        skipPast_some_eq_drop _ _ hn (skipPast_suffix _ _) k key hk hklen
          hkeyeq
      rw [collectAggregateIdPages, hcall]
      have hresolve2 : resolveFilter ⟨none, none, none, false,
          some (encodeToken ⟨some k, after, before,
            (if rev then some true else none), some key⟩)⟩ =
          ⟨some k, after, before, rev, some key⟩ := by
        rw [resolveFilter_token_only]
        cases rev <;> rfl
      have hrec := ih ⟨none, none, none, false,
        some (encodeToken ⟨some k, after, before,
          (if rev then some true else none), some key⟩)⟩ (some key)
        hresolve2
        (by
          rw [hdrop, List.length_drop]
          omega)
      simp only
      rw [hkey, hkeyeq]
      rw [hrec, hdrop]
      exact List.take_append_drop k _
    · have hcall : listAggregateIds options store =
          ⟨(skipPast lastKey
            (baseAggregateIds after before rev store)).take k, none⟩ := by
        rw [listAggregateIds, hres, listAggregateIdsResolved_limit _ k rfl,
          hrem, if_neg hklen]
      rw [collectAggregateIdPages, hcall]
      simp only
      exact List.take_of_length_le (by omega)

/-- C7: pagination of `listAggregateIds` is lossless and non-overlapping —
following `nextPageToken` (passed as the sole option of each next call) until
it is absent and concatenating the pages yields exactly the ordered id
sequence of a single unpaginated call with the same filter and no limit; and
a call's `nextPageToken` is present exactly when ids remain beyond its
page. -/
theorem listAggregateIds_pagination_lossless
    (options : ListAggregateIdsOptions) (store : EventLog) (k fuel : Nat)
    (hn : (store.map Prod.fst).Nodup) (htok : options.pageToken = none)
    (hlim : options.limit = some k) (hk : 1 ≤ k)
    (hfuel : (baseAggregateIds options.initialEventAfter
      options.initialEventBefore options.reverse store).length ≤ fuel) :
    collectAggregateIdPages fuel options store =
      (listAggregateIds { options with limit := none } store).aggregateIds ∧
    (∀ f : ResolvedFilter,
      (listAggregateIdsResolved f store).nextPageToken.isSome = true ↔
        (listAggregateIdsResolved f store).aggregateIds.length <
          (remainingAggregateIds f store).length) := by
  constructor
  · have hres : resolveFilter options =
        ⟨some k, options.initialEventAfter, options.initialEventBefore,
          options.reverse, none⟩ := by
      rw [resolveFilter_no_token options htok, hlim]
    have hcollect := collectAggregateIdPages_spec store
      options.initialEventAfter options.initialEventBefore options.reverse k
      hk (baseAggregateIds_nodup _ _ _ _ hn) fuel options none hres hfuel
    rw [hcollect]
    have hres2 : resolveFilter { options with limit := none } =
        ⟨none, options.initialEventAfter, options.initialEventBefore,
          options.reverse, none⟩ := by
      rw [resolveFilter_no_token { options with limit := none }
        (by simpa using htok)]
    rw [listAggregateIds, hres2]
    rfl
  · intro f
    cases hf : f.limit with
    | none =>
      have : listAggregateIdsResolved f store =
          ⟨remainingAggregateIds f store, none⟩ := by
        unfold listAggregateIdsResolved
        rw [hf]
      rw [this]
      simp
    | some k' =>
      rw [listAggregateIdsResolved_limit f k' hf store]
      by_cases h : k' < (remainingAggregateIds f store).length
      · rw [if_pos h]
        simp only [Option.isSome_some, List.length_take]
        constructor
        · intro _
          omega
        · intro _
          trivial
      · rw [if_neg h]
        simp only [Option.isSome_none, List.length_take]
        constructor
        · intro hh
          exact Bool.noConfusion hh
        · intro hh
          omega

theorem listAggregateIds_pagination_lossless_witness :
    ((c7Store.map Prod.fst).Nodup ∧ 1 ≤ 2 ∧
      (baseAggregateIds none none false c7Store).length ≤ 3) ∧
    collectAggregateIdPages 3 { limit := some 2 } c7Store = ["a", "b", "c"] ∧
    (listAggregateIds { limit := some 2 } c7Store).aggregateIds = ["a", "b"] ∧
    (listAggregateIds { limit := some 2 } c7Store).nextPageToken.isSome =
      true ∧
    (listAggregateIds {} c7Store).nextPageToken = none :=
  ⟨⟨by decide, by decide, by decide⟩,
   ((listAggregateIds_pagination_lossless { limit := some 2 } c7Store 2 3
     (by decide) rfl rfl (by decide) (by decide)).1).trans (by decide),
   by decide, by decide, by decide⟩
